import Mathlib

/-!
Shallow embedding of the note-range optimization / remapping core of the
Auto-play repository (files `note_range_optimizer.py`, `midi_player.py`,
`key_sequence.py`, `keyboard_mapping.py`), together with theorems settling
the frozen claims about its specification.

Conventions of the embedding:
* Python ints are `ℤ` (or `ℕ` where the source value is a count/tick that is
  provably non-negative); Python `//` and `%` on a positive divisor agree with
  Lean's `/` and `%` on `ℤ`.
* Python float arithmetic on the score formulas is modelled exactly over `ℚ`;
  the single genuinely irrational operation (`np.std`, a square root) is
  modelled over `ℝ`.
* Code that raises an exception is modelled with `Option` (`none` = raise).
* Python `dict`s are association lists in key-insertion order; Python's
  stable `list.sort` is a stable insertion sort.
-/

/-! ### Generic list helpers (Python dict / set semantics) -/

/-- Lookup in an association list (first match), as a plain recursion so that
proofs can unfold it; mirrors Python `dict.__getitem__` / `.get`. -/
def alookup {β : Type} (k : ℤ) : List (ℤ × β) → Option β
  | [] => none
  | (k', v) :: rest => if k = k' then some v else alookup k rest

/-- Update an association list at a key, keeping insertion order; appends the
pair if the key is absent (Python `d[k] = v`). -/
def aupsert {β : Type} (l : List (ℤ × β)) (k : ℤ) (v : β) : List (ℤ × β) :=
  match l with
  | [] => [(k, v)]
  | (k', v') :: rest => if k = k' then (k, v) :: rest else (k', v') :: aupsert rest k v

/-- `defaultdict(int)`-style counting in key-insertion order:
`tallyAdd l k c` adds `c` to the count of key `k`. -/
def tallyAdd (l : List (ℤ × ℕ)) (k : ℤ) (c : ℕ) : List (ℤ × ℕ) :=
  match l with
  | [] => [(k, c)]
  | (k', c') :: rest => if k = k' then (k', c' + c) :: rest else (k', c') :: tallyAdd rest k c

/-- Count occurrences of each element, keys in first-occurrence order
(`defaultdict(int)` filled by iteration). -/
def tally (l : List ℤ) : List (ℤ × ℕ) :=
  l.foldl (fun acc n => tallyAdd acc n 1) []

/-- Minimum of a non-empty integer list (`min(notes)`); `0` on `[]`, but the
callers guard emptiness exactly where Python would raise. -/
def listMin : List ℤ → ℤ
  | [] => 0
  | h :: t => t.foldl min h

/-- Maximum of a non-empty integer list (`max(notes)`). -/
def listMax : List ℤ → ℤ
  | [] => 0
  | h :: t => t.foldl max h

/-! ### `keyboard_mapping.py` -/

/-- `PENTATONIC_INTERVALS` from `keyboard_mapping.py`. -/
def PENTATONIC_INTERVALS : List ℤ := [0, 2, 4, 5, 7, 9, 11]

/-- One play-mode configuration from `PLAY_MODES` in `keyboard_mapping.py`.
`octave_bases` is the dict's value list in insertion order; the three named
aliases record the entries read by name (`'low'`, `'middle'`, `'high'`). -/
structure ModeConfig where
  playable_min : ℤ
  playable_max : ℤ
  octave_bases : List ℤ
  base_low : ℤ
  base_middle : ℤ
  base_high : ℤ
  note_to_key : List (ℤ × String)
deriving DecidableEq

/-- `NOTE_TO_KEY` (21-key mode): reverse mapping of `GAME_NOTES`, keys
lower-cased, in `GAME_NOTES` insertion order. -/
def NOTE_TO_KEY : List (ℤ × String) :=
  [(72, "q"), (74, "w"), (76, "e"), (77, "r"), (79, "t"), (81, "y"), (83, "u"),
   (60, "a"), (62, "s"), (64, "d"), (65, "f"), (67, "g"), (69, "h"), (71, "j"),
   (48, "z"), (50, "x"), (52, "c"), (53, "v"), (55, "b"), (57, "n"), (59, "m")]

/-- `NOTE_TO_KEY_36KEY`: reverse mapping of `GAME_NOTES_36KEY` (keys kept as
written, including modifier combinations). -/
def NOTE_TO_KEY_36KEY : List (ℤ × String) :=
  [(84, "shift+Q"), (86, "shift+W"), (88, "shift+E"), (89, "shift+R"),
   (91, "shift+T"), (93, "shift+Y"), (95, "shift+U"),
   (72, "Q"), (74, "W"), (76, "E"), (77, "R"), (79, "T"), (81, "Y"), (83, "U"),
   (60, "A"), (62, "S"), (64, "D"), (65, "F"), (67, "G"), (69, "H"), (71, "J"),
   (48, "Z"), (50, "X"), (52, "C"), (53, "V"), (55, "B"), (57, "N"), (59, "M"),
   (36, "ctrl+Z"), (38, "ctrl+X"), (40, "ctrl+C"), (41, "ctrl+V"),
   (43, "ctrl+B"), (45, "ctrl+N"), (47, "ctrl+M")]

/-- `PLAY_MODES['21key']`. -/
def mode21key : ModeConfig :=
  { playable_min := 48, playable_max := 83
    octave_bases := [48, 60, 72]
    base_low := 48, base_middle := 60, base_high := 72
    note_to_key := NOTE_TO_KEY }

/-- `PLAY_MODES['36key']`. -/
def mode36key : ModeConfig :=
  { playable_min := 36, playable_max := 95
    octave_bases := [36, 48, 60, 72, 84]
    base_low := 36, base_middle := 60, base_high := 84
    note_to_key := NOTE_TO_KEY_36KEY }

/-! ### `note_range_optimizer.py`: statistics (`analyze_notes` and helpers) -/

/-- Result of `_analyze_melody_line` when it returns a non-empty dict
(at least two notes, so `np.diff` is non-empty). -/
structure MelodyLine where
  avg_change : ℚ
  max_change : ℚ
  direction_changes : ℕ
deriving DecidableEq

/-- The per-step pitch differences `np.diff(notes)`. -/
def noteChanges (notes : List ℤ) : List ℤ :=
  List.zipWith (fun a b => a - b) notes.tail notes

/-- `NoteRangeOptimizer._analyze_melody_line`.
Outer `none` models the `ValueError` raised by `np.max` on an empty
reduction: for a one-element list `np.diff` is empty and `np.max` raises.
`some none` models the `{}` returned for an empty list; `some (some m)`
is the populated dict. -/
def analyze_melody_line (notes : List ℤ) : Option (Option MelodyLine) :=
  match notes with
  | [] => some none
  | [_] => none
  | _ =>
    let changes := noteChanges notes
    let absChanges := changes.map (fun c => |c|)
    some (some
      { avg_change := ((absChanges.sum : ℤ) : ℚ) / (absChanges.length : ℚ)
        max_change := ((listMax absChanges : ℤ) : ℚ)
        direction_changes :=
          (List.zipWith (fun a b => a * b) changes.tail changes).countP (fun p => p < 0) })

/-- The `'density'` sub-dict of `analyze_notes`. -/
structure DensityStats where
  total_notes : ℕ
  unique_notes : ℕ
  octave_distribution : List (ℤ × ℕ)
deriving DecidableEq

/-- `NoteRangeOptimizer._analyze_density`. -/
def analyze_density (notes : List ℤ) : DensityStats :=
  { total_notes := notes.length
    unique_notes := (tally notes).length
    octave_distribution := (notes.map (fun n => n / 12)).foldl (fun acc k => tallyAdd acc k 1) [] }

/-- `NoteRangeOptimizer._analyze_transitions`: consecutive ordered pairs with
multiplicities.  Pairs are encoded flat as `((n1, n2), count)`. -/
def analyze_transitions (notes : List ℤ) : List ((ℤ × ℤ) × ℕ) :=
  (notes.zip notes.tail).foldl
    (fun acc p =>
      match acc.lookup p with
      | some _ => acc.map (fun q => if q.1 = p then (q.1, q.2 + 1) else q)
      | none => acc ++ [(p, 1)])
    []

/-- The `stats` dict produced by `NoteRangeOptimizer.analyze_notes`
(without the optional velocity map, which no claim touches). -/
structure Stats where
  min_note : ℤ
  max_note : ℤ
  noteRange : ℤ
  distribution : List (ℤ × ℕ)
  melody_line : Option MelodyLine
  transitions : List ((ℤ × ℤ) × ℕ)
  density : DensityStats
deriving DecidableEq

/-- `NoteRangeOptimizer.analyze_notes` (velocities omitted).  `none` models a
raised `ValueError`: `min([])` raises on an empty list, and
`_analyze_melody_line` raises on a one-element list. -/
def analyze_notes (notes : List ℤ) : Option Stats :=
  match notes with
  | [] => none
  | _ =>
    match analyze_melody_line notes with
    | none => none
    | some ml =>
      some
        { min_note := listMin notes
          max_note := listMax notes
          noteRange := listMax notes - listMin notes
          distribution := tally notes
          melody_line := ml
          transitions := analyze_transitions notes
          density := analyze_density notes }

/-! ### `note_range_optimizer.py`: fitness scoring -/

/-- `NoteRangeOptimizer._calculate_coverage_score`. -/
def calculate_coverage_score (cfg : ModeConfig) (stats : Stats) (offset : ℤ) : ℚ :=
  let total_notes : ℕ := (stats.distribution.map (fun p => p.2)).sum
  let playable_notes : ℕ :=
    (stats.distribution.map
      (fun p => if cfg.playable_min ≤ p.1 + offset ∧ p.1 + offset ≤ cfg.playable_max
                then p.2 else 0)).sum
  if 0 < total_notes then (playable_notes : ℚ) / (total_notes : ℚ) else 0

/-- The octave-bucketed distribution of in-range shifted notes used by
`_calculate_density_score`. -/
def shiftedDistribution (cfg : ModeConfig) (stats : Stats) (offset : ℤ) : List (ℤ × ℕ) :=
  stats.distribution.foldl
    (fun acc p =>
      if cfg.playable_min ≤ p.1 + offset ∧ p.1 + offset ≤ cfg.playable_max
      then tallyAdd acc ((p.1 + offset) / 12) p.2 else acc)
    []

/-- Population mean of a list of counts (`np.mean`). -/
def npMean (values : List ℕ) : ℚ :=
  ((values.sum : ℤ) : ℚ) / (values.length : ℚ)

/-- Population variance of a list of counts (`np.std` squared, `ddof = 0`). -/
def npVariance (values : List ℕ) : ℚ :=
  (values.map (fun v => ((v : ℚ) - npMean values) ^ 2)).sum / (values.length : ℚ)

/-- `NoteRangeOptimizer._calculate_density_score`.  `np.std` is a real square
root, so this one score lives in `ℝ`. -/
noncomputable def calculate_density_score (cfg : ModeConfig) (stats : Stats) (offset : ℤ) : ℝ :=
  let sd := shiftedDistribution cfg stats offset
  if sd = [] then 0
  else
    let values := sd.map (fun p => p.2)
    1 - Real.sqrt ((npVariance values : ℚ) : ℝ) / ((npMean values : ℚ) : ℝ)

/-- `NoteRangeOptimizer._calculate_melody_score` (the final, blended
variant at lines 202-224). -/
def calculate_melody_score (stats : Stats) (offset : ℤ) : ℚ :=
  match stats.melody_line with
  | none => 0
  | some m =>
    let original_notes := stats.distribution.map (fun p => p.1)
    let shifted_notes := original_notes.map (fun n => n + offset)
    let deviation_sum : ℤ := ((shifted_notes.zip original_notes).map (fun p => |p.1 - p.2|)).sum
    let avg_deviation : ℚ := (deviation_sum : ℚ) / (original_notes.length : ℚ)
    let deviation_score : ℚ := 1 / (1 + avg_deviation / 12)
    let change_score : ℚ := 1 - (if m.avg_change ≤ 12 then m.avg_change / 12 else 1)
    deviation_score * (7/10) + change_score * (3/10)

/-- `NoteRangeOptimizer._calculate_transition_score` (its `offset` parameter
is unused in the source as well). -/
def calculate_transition_score (stats : Stats) (_offset : ℤ) : ℚ :=
  if stats.transitions = [] then 0
  else
    let total : ℕ := (stats.transitions.map (fun p => p.2)).sum
    let smooth : ℕ :=
      (stats.transitions.map (fun p => if |p.1.2 - p.1.1| ≤ 12 then p.2 else 0)).sum
    if 0 < total then (smooth : ℚ) / (total : ℚ) else 0

/-- `NoteRangeOptimizer._calculate_note_importance` (the cache is pure
memoization of this function of the interval). -/
def calculate_note_importance (interval : ℤ) : ℚ :=
  if interval ∈ PENTATONIC_INTERVALS then 1
  else if interval = 1 then 9/10
  else if interval = 3 then 8/10
  else if interval = 6 then 7/10
  else if interval = 8 then 8/10
  else if interval = 10 then 7/10
  else 3/10

/-- `NoteRangeOptimizer._get_interval` (pure memoization of `(note - base) % 12`). -/
def get_interval (note base : ℤ) : ℤ := (note - base) % 12

/-- Distance from an interval to the nearest pentatonic interval. -/
def minPentatonicDistance (interval : ℤ) : ℤ :=
  listMin (PENTATONIC_INTERVALS.map (fun p => |interval - p|))

/-- `NoteRangeOptimizer._calculate_pentatonic_score`; `notes` is
`list(stats['distribution'].keys())` at the call site. -/
def calculate_pentatonic_score (cfg : ModeConfig) (notes : List ℤ) (offset : ℤ) : ℚ :=
  let perNote : ℤ → ℚ := fun note =>
    let shifted := note + offset
    cfg.octave_bases.foldl
      (fun best base =>
        if base ≤ shifted ∧ shifted < base + 12 then
          let interval := get_interval shifted base
          let importance := calculate_note_importance interval
          let note_score := importance / (1 + (minPentatonicDistance interval : ℚ) * (1/2))
          max best note_score
        else best)
      0
  if 0 < notes.length then (notes.map perNote).sum / (notes.length : ℚ) else 0

/-- Per-band tallies (`octave_counts`) of `_calculate_octave_balance`:
note count and summed importance for the low / middle / high bands. -/
structure OctaveCounts where
  low_t : ℕ
  low_i : ℚ
  mid_t : ℕ
  mid_i : ℚ
  high_t : ℕ
  high_i : ℚ

/-- `NoteRangeOptimizer._calculate_octave_balance`; `notes` is
`list(stats['distribution'].keys())` at the call site. -/
def calculate_octave_balance (cfg : ModeConfig) (notes : List ℤ) (offset : ℤ) : ℚ :=
  let counts : OctaveCounts :=
    notes.foldl
      (fun c note =>
        let shifted := note + offset
        if shifted < cfg.base_middle then
          let imp := calculate_note_importance (get_interval shifted cfg.base_low)
          { c with low_t := c.low_t + 1, low_i := c.low_i + imp }
        else if shifted < cfg.base_high then
          let imp := calculate_note_importance (get_interval shifted cfg.base_middle)
          { c with mid_t := c.mid_t + 1, mid_i := c.mid_i + imp }
        else
          let imp := calculate_note_importance (get_interval shifted cfg.base_high)
          { c with high_t := c.high_t + 1, high_i := c.high_i + imp })
      ⟨0, 0, 0, 0, 0, 0⟩
  let total := notes.length
  if total = 0 then 0
  else
    (if 0 < counts.low_t then
        (3/10) * ((counts.low_t : ℚ) / total * (6/10) + counts.low_i / total * (4/10)) else 0) +
    (if 0 < counts.mid_t then
        (4/10) * ((counts.mid_t : ℚ) / total * (6/10) + counts.mid_i / total * (4/10)) else 0) +
    (if 0 < counts.high_t then
        (3/10) * ((counts.high_t : ℚ) / total * (6/10) + counts.high_i / total * (4/10)) else 0)

/-- `NoteRangeOptimizer._calculate_fitness`: the weighted sum of the six
sub-scores with the weights from `NoteRangeOptimizer.__init__`. -/
noncomputable def calculate_fitness (cfg : ModeConfig) (stats : Stats) (offset : ℤ) : ℝ :=
  let notes := stats.distribution.map (fun p => p.1)
  (4/10 : ℝ) * ((calculate_coverage_score cfg stats offset : ℚ) : ℝ) +
  (1/10 : ℝ) * calculate_density_score cfg stats offset +
  (3/10 : ℝ) * ((calculate_melody_score stats offset : ℚ) : ℝ) +
  (1/10 : ℝ) * ((calculate_transition_score stats offset : ℚ) : ℝ) +
  (5/100 : ℝ) * ((calculate_pentatonic_score cfg notes offset : ℚ) : ℝ) +
  (5/100 : ℝ) * ((calculate_octave_balance cfg notes offset : ℚ) : ℝ)

/-! ### `note_range_optimizer.py`: offset search (`find_best_offset`) -/

/-- Truncation toward zero: Python's `int()` applied to an exact value. -/
def ratTrunc (q : ℚ) : ℤ := if 0 ≤ q then ⌊q⌋ else ⌈q⌉

/-- `suggested_offset = int(target_center - original_center)` where
`target_center = (playable_min + playable_max) / 2` and
`original_center = (min_note + max_note) / 2` (both exact in binary floats,
so the subtraction and `int()` are exact). -/
def suggested_offset (cfg : ModeConfig) (stats : Stats) : ℤ :=
  ratTrunc ((((cfg.playable_min + cfg.playable_max : ℤ) : ℚ)) / 2 -
            (((stats.min_note + stats.max_note : ℤ) : ℚ)) / 2)

/-- The list of candidate offsets scanned by `find_best_offset`:
`range(int(min_offset), int(max_offset) + 1)` with
`min_offset = max(playable_min - max_note, suggested - 12)` and
`max_offset = min(playable_max - min_note, suggested + 12)`. -/
def candidateList (cfg : ModeConfig) (stats : Stats) : List ℤ :=
  (List.range
      (min (cfg.playable_max - stats.min_note) (suggested_offset cfg stats + 12) + 1 -
        max (cfg.playable_min - stats.max_note) (suggested_offset cfg stats - 12)).toNat).map
    (fun i : ℕ =>
      max (cfg.playable_min - stats.max_note) (suggested_offset cfg stats - 12) + (i : ℤ))

/-- The candidate offsets `find_best_offset` evaluates on a given note list
(empty when `analyze_notes` raises and nothing is evaluated). -/
def candidateOffsets (cfg : ModeConfig) (notes : List ℤ) : List ℤ :=
  match analyze_notes notes with
  | none => []
  | some stats => candidateList cfg stats

open scoped Classical

/-- `NoteRangeOptimizer.find_best_offset` (velocities omitted).  `none`
models the `ValueError` propagated out of `analyze_notes`; otherwise the
scan starts from `(0, 0)` and keeps the first strictly best offset. -/
noncomputable def find_best_offset (cfg : ModeConfig) (notes : List ℤ) : Option (ℤ × ℝ) :=
  match analyze_notes notes with
  | none => none
  | some stats =>
    some ((candidateList cfg stats).foldl
      (fun best offset =>
        let score := calculate_fitness cfg stats offset
        if score > best.2 then (offset, score) else best)
      ((0 : ℤ), (0 : ℝ)))

/-! ### `midi_player.py`: note remapping (`MidiPlayer._adjust_note`) -/

/-- Modelled from the spec: `_adjust_note` reads `self.PLAYABLE_MIN`, an
attribute assigned by no file under `src/` (only `self.playable_min` is set
there, from the mode's `PlayConfig`); per the spec (§4.3 and glossary) the
bound used by the remapper is the active configuration's inclusive lower
playable bound. -/
def PLAYABLE_MIN (cfg : ModeConfig) : ℤ := cfg.playable_min

/-- Modelled from the spec: upper counterpart of `PLAYABLE_MIN`. -/
def PLAYABLE_MAX (cfg : ModeConfig) : ℤ := cfg.playable_max

/-- The `while shifted_note < self.PLAYABLE_MIN: shifted_note += 12` loop. -/
def shiftUpIntoRange (pmin s : ℤ) : ℤ :=
  if s < pmin then shiftUpIntoRange pmin (s + 12) else s
termination_by (pmin - s).toNat
decreasing_by omega

/-- The `while shifted_note > self.PLAYABLE_MAX: shifted_note -= 12` loop. -/
def shiftDownIntoRange (pmax s : ℤ) : ℤ :=
  if s > pmax then shiftDownIntoRange pmax (s - 12) else s
termination_by (s - pmax).toNat
decreasing_by omega

/-- The in-range pentatonic candidates within the octave starting at `base`,
paired with their distance to `shifted` (the `candidates` list built twice in
`_adjust_note`). -/
def pentCandidates (cfg : ModeConfig) (base shifted : ℤ) : List (ℤ × ℤ) :=
  PENTATONIC_INTERVALS.filterMap
    (fun p =>
      let candidate := base + p
      if PLAYABLE_MIN cfg ≤ candidate ∧ candidate ≤ PLAYABLE_MAX cfg
      then some (candidate, |shifted - candidate|) else none)

/-- `min(candidates, key=lambda x: x[1])`: first element of minimal distance. -/
def pickMinBySnd : List (ℤ × ℤ) → Option (ℤ × ℤ)
  | [] => none
  | h :: t => some (t.foldl (fun b x => if x.2 < b.2 then x else b) h)

/-- The two octave-shift `while` loops of `_adjust_note`: move the shifted
note into range by whole octaves (a no-op when it is already in range, which
is exactly the fall-through case of the source). -/
def octaveAdjust (cfg : ModeConfig) (s : ℤ) : ℤ :=
  if s < PLAYABLE_MIN cfg then shiftUpIntoRange (PLAYABLE_MIN cfg) s
  else if s > PLAYABLE_MAX cfg then shiftDownIntoRange (PLAYABLE_MAX cfg) s
  else s

/-- `MidiPlayer._adjust_note` as a function of the raw note, the current
offset and the configuration (the memoization layer is modelled separately
by `adjust_note_cached`).  Control flow mirrors the source: the in-range
non-pentatonic case with no in-range candidate falls through to the final
clamp, and the out-of-range case is octave-shifted into range and searched
again before clamping. -/
def adjust_note (cfg : ModeConfig) (offset note : ℤ) : ℤ :=
  if (PLAYABLE_MIN cfg ≤ note + offset ∧ note + offset ≤ PLAYABLE_MAX cfg) ∧
      (note + offset) % 12 ∈ PENTATONIC_INTERVALS then
    note + offset
  else if (PLAYABLE_MIN cfg ≤ note + offset ∧ note + offset ≤ PLAYABLE_MAX cfg) ∧
      (pickMinBySnd (pentCandidates cfg (((note + offset) / 12) * 12) (note + offset))).isSome then
    ((pickMinBySnd (pentCandidates cfg (((note + offset) / 12) * 12) (note + offset))).getD (0, 0)).1
  else
    match pickMinBySnd (pentCandidates cfg
        ((octaveAdjust cfg (note + offset) / 12) * 12) (octaveAdjust cfg (note + offset))) with
    | some best => best.1
    | none => max (min (octaveAdjust cfg (note + offset)) (PLAYABLE_MAX cfg)) (PLAYABLE_MIN cfg)

/-- The `_note_key_cache`: keys are `(note, note_offset)` pairs. -/
def CacheEntryKey : Type := ℤ × ℤ
deriving instance DecidableEq for CacheEntryKey

/-- Lookup in the remap cache. -/
def cacheLookup (k : ℤ × ℤ) : List ((ℤ × ℤ) × ℤ) → Option ℤ
  | [] => none
  | (k', v) :: rest => if k = k' then some v else cacheLookup k rest

/-- `MidiPlayer._adjust_note` including its memoization: returns the
(possibly cached) result and the updated cache. -/
def adjust_note_cached (cfg : ModeConfig) (cache : List ((ℤ × ℤ) × ℤ)) (offset note : ℤ) :
    ℤ × List ((ℤ × ℤ) × ℤ) :=
  match cacheLookup (note, offset) cache with
  | some v => (v, cache)
  | none =>
    let v := adjust_note cfg offset note
    (v, ((note, offset), v) :: cache)

/-- Cache coherence: every entry stores exactly what `adjust_note` computes
fresh for its key. -/
def CacheCoherent (cfg : ModeConfig) (cache : List ((ℤ × ℤ) × ℤ)) : Prop :=
  ∀ note offset v, cacheLookup (note, offset) cache = some v → v = adjust_note cfg offset note

/-! ### `midi_player.py`: transport state (`pause`, `stop`, focus handling) -/

/-- The three state flags of `MidiPlayer` that realize the transport state. -/
structure PlayerFlags where
  playing : Bool
  paused : Bool
  auto_paused : Bool
deriving DecidableEq

/-- The TransportState enum of the spec, derived from the flags: `Stopped`
iff not playing; `AutoPaused` dominates `Paused` (cf. `main.py`'s
`check_window_state`, which displays auto-pause before manual pause). -/
inductive TransportState where
  | Stopped
  | Playing
  | Paused
  | AutoPaused
deriving DecidableEq

/-- View of the flags as the spec's TransportState. -/
def toTransport (s : PlayerFlags) : TransportState :=
  if ¬s.playing then .Stopped
  else if s.auto_paused then .AutoPaused
  else if s.paused then .Paused
  else .Playing

/-- Requests and environment signals driving the transport. -/
inductive TransportEvent where
  | focusLost
  | focusRegained
  | pauseRequest (focused : Bool) (windowFound : Bool)
  | stopRequest
deriving DecidableEq

/-- `MidiPlayer.pause` in hardware-key mode (the mode the focus guards are
for): `focused` is `_check_active_window()`, `windowFound` is
`_switch_to_game_window()`. -/
def pauseStep (s : PlayerFlags) (focused windowFound : Bool) : PlayerFlags :=
  if s.playing then
    if s.auto_paused ∧ ¬focused then s
    else if s.paused ∧ ¬windowFound then s
    else { playing := s.playing, paused := ¬s.paused, auto_paused := false }
  else s

/-- The flag updates of `MidiPlayer.stop`. -/
def stopStep (_s : PlayerFlags) : PlayerFlags :=
  { playing := false, paused := false, auto_paused := false }

/-- Modelled from the spec: the automatic focus-loss transition
(`Playing → AutoPaused`).  No file under `src/` ever sets
`auto_paused = True` (only `pause`/`stop` clear it and `main.py` reads it);
per the spec §4.4 / Scenario D, losing target-window focus while Playing
auto-pauses playback. -/
def focusLostStep (s : PlayerFlags) : PlayerFlags :=
  if s.playing ∧ ¬s.paused ∧ ¬s.auto_paused then
    { playing := s.playing, paused := true, auto_paused := true }
  else s

/-- Modelled from the spec: the automatic resume (`AutoPaused → Playing`)
once focus returns, "without requiring a further manual request"
(Scenario D). -/
def focusRegainedStep (s : PlayerFlags) : PlayerFlags :=
  if s.playing ∧ s.auto_paused then
    { playing := s.playing, paused := false, auto_paused := false }
  else s

/-- One transport transition. -/
def transportStep (s : PlayerFlags) : TransportEvent → PlayerFlags
  | .focusLost => focusLostStep s
  | .focusRegained => focusRegainedStep s
  | .pauseRequest focused windowFound => pauseStep s focused windowFound
  | .stopRequest => stopStep s

/-- Flag invariant of every reachable player state: the automatic pause flag
is only ever raised together with the pause flag. -/
def FlagsInv (s : PlayerFlags) : Prop := s.auto_paused → s.paused

/-! ### `midi_player.py`: pressed-key set (`_press_key` etc.) -/

/-- Observable key-injection calls (`keyboard.press` / `keyboard.release`
or `KeySender.send_key`). -/
inductive KeyAction where
  | pressA (key : String)
  | releaseA (key : String)
deriving DecidableEq

/-- `MidiPlayer._press_key`: state of `_pressed_keys` plus emitted
injections. -/
def press_key (pressed : List String) (key : String) : List String × List KeyAction :=
  if key ∈ pressed then (pressed, [])
  else (key :: pressed, [KeyAction.pressA key])

/-- `MidiPlayer._release_key`. -/
def release_key (pressed : List String) (key : String) : List String × List KeyAction :=
  if key ∈ pressed then (pressed.erase key, [KeyAction.releaseA key])
  else (pressed, [])

/-- `MidiPlayer._release_all_keys`: iterate over a copy releasing each key,
then clear the set. -/
def release_all_keys (pressed : List String) : List String × List KeyAction :=
  let r := pressed.foldl
    (fun acc k =>
      let p := release_key acc.1 k
      (p.1, acc.2 ++ p.2))
    (pressed, [])
  ([], r.2)

/-! ### `key_sequence.py`: `KeySequence.from_midi` -/

/-- A decoded MIDI message (the collaborator's output; raw byte parsing is
out of scope). -/
inductive MidiMsg where
  | noteOn (note : ℕ) (velocity : ℕ)
  | noteOff (note : ℕ) (velocity : ℕ)
  | setTempo (tempo : ℕ)
  | meta
deriving DecidableEq

/-- A track message with its delta time in ticks (`msg.time`). -/
structure TimedMsg where
  dt : ℕ
  msg : MidiMsg
deriving DecidableEq

/-- A collected raw note event (the `raw_events` dicts). -/
structure RawEvent where
  tick : ℕ
  note : ℕ
  velocity : ℕ
  is_press : Bool
  track : ℕ
deriving DecidableEq

/-- One entry of `KeySequence.events`. -/
structure KeyEvt where
  key : String
  press : Bool
  time : ℚ
  note : ℤ
  velocity : ℕ
deriving DecidableEq

/-- Per-note boolean state (`track_note_states[track_idx]` / `note_states`),
an insertion-ordered dict. -/
def stateGet (states : List (ℤ × Bool)) (n : ℤ) : Bool :=
  (alookup n states).getD false

/-- Walk one track accumulating absolute ticks, de-duplicating per-track
note state, and collecting note events (first result) and tempo changes
(second result). -/
def collectTrack (trackIdx : ℕ) : List TimedMsg → ℕ → List (ℤ × Bool) →
    List RawEvent × List (ℕ × ℕ)
  | [], _, _ => ([], [])
  | m :: rest, tick, states =>
    let t := tick + m.dt
    match m.msg with
    | .setTempo tempo =>
      let r := collectTrack trackIdx rest t states
      (r.1, (t, tempo) :: r.2)
    | .noteOn n v =>
      let is_press := 0 < v
      let cur := stateGet states (n : ℤ)
      if is_press ≠ cur then
        let r := collectTrack trackIdx rest t (aupsert states (n : ℤ) is_press)
        (⟨t, n, v, is_press, trackIdx⟩ :: r.1, r.2)
      else collectTrack trackIdx rest t states
    | .noteOff n v =>
      let cur := stateGet states (n : ℤ)
      if false ≠ cur then
        let r := collectTrack trackIdx rest t (aupsert states (n : ℤ) false)
        (⟨t, n, v, false, trackIdx⟩ :: r.1, r.2)
      else collectTrack trackIdx rest t states
    | .meta => collectTrack trackIdx rest t states

/-- Concatenate the per-track collections over the (optionally filtered)
tracks, in track order. -/
def collectAll (sel : Option ℕ) (tracks : List (List TimedMsg)) :
    List RawEvent × List (ℕ × ℕ) :=
  tracks.enum.foldl
    (fun acc p =>
      match sel with
      | some s => if p.1 = s then
          let r := collectTrack p.1 p.2 0 []
          (acc.1 ++ r.1, acc.2 ++ r.2)
        else acc
      | none =>
        let r := collectTrack p.1 p.2 0 []
        (acc.1 ++ r.1, acc.2 ++ r.2))
    ([], [])

/-- Stable insertion of `x` after every element strictly below it
(`lt y x` means `y` must stay in front of `x`). -/
def stableInsert {α : Type} (lt : α → α → Bool) (x : α) : List α → List α
  | [] => [x]
  | y :: ys => if lt y x then y :: stableInsert lt x ys else x :: y :: ys

/-- A stable sort (Python `list.sort`): equal-key elements keep their
original relative order. -/
def stableSort {α : Type} (lt : α → α → Bool) : List α → List α
  | [] => []
  | x :: xs => stableInsert lt x (stableSort lt xs)

/-- Strict comparison for `raw_events.sort(key=lambda x: (x['tick'], not
x['is_press']))`: the second key component is `False < True`, i.e. press
before release. -/
def rawLt (a b : RawEvent) : Bool :=
  decide (a.tick < b.tick ∨
    (a.tick = b.tick ∧ a.is_press = true ∧ b.is_press = false))

/-- Strict comparison for `tempo_changes.sort(key=lambda x: x['tick'])`. -/
def tempoLt (a b : ℕ × ℕ) : Bool := decide (a.1 < b.1)

/-- `ticks_to_ms(ticks, current_tempo)` from `from_midi`. -/
def ticks_to_ms (ticks_per_beat ticks tempo : ℕ) : ℚ :=
  ((ticks * tempo : ℕ) : ℚ) / ((ticks_per_beat * 1000 : ℕ) : ℚ)

/-- `calculate_real_time(tick)`: walk the sorted tempo changes whose tick is
not past `tick`, accumulating elapsed milliseconds, then add the remainder at
the tempo then in force.  The accumulator arguments are
(`last_tempo_tick`, `last_tempo_time`, `current_tempo`); top-level calls use
`(0, 0, 500000)`. -/
def realTime (tpb : ℕ) : List (ℕ × ℕ) → ℕ → ℚ → ℕ → ℕ → ℚ
  | [], lastTick, lastTime, curTempo, tick =>
    lastTime + ticks_to_ms tpb (tick - lastTick) curTempo
  | (ct, ctempo) :: rest, lastTick, lastTime, curTempo, tick =>
    if tick < ct then lastTime + ticks_to_ms tpb (tick - lastTick) curTempo
    else realTime tpb rest ct (lastTime + ticks_to_ms tpb (ct - lastTick) curTempo) ctempo tick

/-- The conversion loop of `from_midi`: apply the note offset, keep only
notes that are in playable range and key-mapped, de-duplicate against the
global `note_states`, and stamp each kept event with its real time. -/
def convertEvents (cfg : ModeConfig) (offset : ℤ) (tcs : List (ℕ × ℕ)) (tpb : ℕ) :
    List (ℤ × Bool) → List RawEvent → List KeyEvt
  | _, [] => []
  | states, e :: rest =>
    let adjusted : ℤ := (e.note : ℤ) + offset
    if cfg.playable_min ≤ adjusted ∧ adjusted ≤ cfg.playable_max then
      match alookup adjusted cfg.note_to_key with
      | some key =>
        if e.is_press ≠ stateGet states adjusted then
          { key := key, press := e.is_press
            time := realTime tpb tcs 0 0 500000 e.tick
            note := adjusted
            velocity := if e.is_press then e.velocity else 0 } ::
          convertEvents cfg offset tcs tpb (aupsert states adjusted e.is_press) rest
        else convertEvents cfg offset tcs tpb states rest
      | none => convertEvents cfg offset tcs tpb states rest
    else convertEvents cfg offset tcs tpb states rest

/-- The `note_validation` replay: final pressed state of every note after
playing an event list (an insertion-ordered dict). -/
def noteValidation (evs : List KeyEvt) : List (ℤ × Bool) :=
  evs.foldl (fun acc e => aupsert acc e.note e.press) []

/-- Notes still pressed at the end of an event list (`unreleased_notes`). -/
def unreleasedNotes (evs : List KeyEvt) : List ℤ :=
  ((noteValidation evs).filter (fun p => p.2)).map (fun p => p.1)

/-- `sequence.events[-1].time if sequence.events else 0`. -/
def lastEventTime (evs : List KeyEvt) : ℚ :=
  match evs.getLast? with
  | some e => e.time
  | none => 0

/-- The synthetic releases appended for notes still on at stream end, at
one millisecond past the last real event. -/
def syntheticReleases (cfg : ModeConfig) (evs : List KeyEvt) : List KeyEvt :=
  (unreleasedNotes evs).map
    (fun n =>
      { key := (alookup n cfg.note_to_key).getD ""
        press := false
        time := lastEventTime evs + 1
        note := n
        velocity := 0 })

/-- The real (non-synthetic) part of `KeySequence.from_midi`'s event log. -/
def realEvents (cfg : ModeConfig) (offset : ℤ) (sel : Option ℕ) (tpb : ℕ)
    (tracks : List (List TimedMsg)) : List KeyEvt :=
  convertEvents cfg offset (stableSort tempoLt (collectAll sel tracks).2) tpb []
    (stableSort rawLt (collectAll sel tracks).1)

/-- `KeySequence.from_midi`, from the decoded track streams to the final
event log (real events plus synthetic releases). -/
def from_midi (cfg : ModeConfig) (offset : ℤ) (sel : Option ℕ) (tpb : ℕ)
    (tracks : List (List TimedMsg)) : List KeyEvt :=
  realEvents cfg offset sel tpb tracks ++
    syntheticReleases cfg (realEvents cfg offset sel tpb tracks)

/-! ### Shared lemmas -/

/-- Helper for `_release_all_keys`: folding `_release_key` over a duplicate-free
list of keys that are all pressed emits exactly one release per key. -/
theorem release_fold_actions (l : List String) :
    ∀ (s : List String) (acts : List KeyAction), l.Nodup → (∀ k ∈ l, k ∈ s) →
    (l.foldl (fun acc k => ((release_key acc.1 k).1, acc.2 ++ (release_key acc.1 k).2))
        (s, acts)).2 = acts ++ l.map KeyAction.releaseA := by
  induction l with
  | nil => intro s acts _ _; simp
  | cons h t ih =>
    intro s acts hnd hsub
    have hmem : h ∈ s := hsub h (by simp)
    have hstep : release_key s h = (s.erase h, [KeyAction.releaseA h]) := by
      simp [release_key, hmem]
    have hsub' : ∀ k ∈ t, k ∈ s.erase h := by
      intro k hk
      have hne : k ≠ h := by
        intro hkh
        exact (List.nodup_cons.mp hnd).1 (hkh ▸ hk)
      exact List.mem_erase_of_ne hne |>.mpr (hsub k (List.mem_cons_of_mem _ hk))
    have hnd' : t.Nodup := (List.nodup_cons.mp hnd).2
    simp only [List.foldl_cons, hstep]
    rw [ih (s.erase h) (acts ++ [KeyAction.releaseA h]) hnd' hsub']
    simp

/-- The transport flag invariant is preserved by every transition. -/
theorem transportStep_preserves_inv (s : PlayerFlags) (e : TransportEvent)
    (h : FlagsInv s) : FlagsInv (transportStep s e) := by
  rcases s with ⟨p, q, r⟩
  cases e with
  | focusLost =>
    cases p <;> cases q <;> cases r <;>
      simp_all [FlagsInv, transportStep, focusLostStep]
  | focusRegained =>
    cases p <;> cases q <;> cases r <;>
      simp_all [FlagsInv, transportStep, focusRegainedStep]
  | pauseRequest f w =>
    cases p <;> cases q <;> cases r <;> cases f <;> cases w <;>
      simp_all [FlagsInv, transportStep, pauseStep]
  | stopRequest =>
    cases p <;> cases q <;> cases r <;>
      simp_all [FlagsInv, transportStep, stopStep]

/-! ### Claim C5 -/

/-- C5: in the transport state machine, focus loss during Playing moves the
state to AutoPaused; while unfocused a manual pause/resume request is
rejected and the state stays AutoPaused; no transition ever takes AutoPaused
to manual Paused; and once focus is regained the state returns to Playing
without a manual request.  (States are the reachable flag states, i.e. those
satisfying `FlagsInv`.) -/
theorem transport_autopause_protocol (s : PlayerFlags) (hInv : FlagsInv s) :
    (toTransport s = .Playing → toTransport (transportStep s .focusLost) = .AutoPaused) ∧
    (toTransport s = .AutoPaused →
      ∀ wf, transportStep s (.pauseRequest false wf) = s) ∧
    (toTransport s = .AutoPaused → ∀ e, toTransport (transportStep s e) ≠ .Paused) ∧
    (toTransport s = .AutoPaused → toTransport (transportStep s .focusRegained) = .Playing) := by
  rcases s with ⟨p, q, r⟩
  refine ⟨?_, ?_, ?_, ?_⟩
  · intro hs
    cases p <;> cases q <;> cases r <;>
      simp_all [toTransport, transportStep, focusLostStep]
  · intro hs wf
    cases p <;> cases q <;> cases r <;>
      simp_all [FlagsInv, toTransport, transportStep, pauseStep]
  · intro hs e
    have hq : q = true := by
      cases p <;> cases q <;> cases r <;> simp_all [FlagsInv, toTransport]
    rcases e with _ | _ | ⟨f, w⟩ | _ <;>
      cases p <;> cases r <;> cases hq <;> first
      | (cases f <;> cases w <;>
          simp_all [toTransport, transportStep, pauseStep, focusLostStep,
            focusRegainedStep, stopStep])
      | simp_all [toTransport, transportStep, pauseStep, focusLostStep,
          focusRegainedStep, stopStep]
  · intro hs
    cases p <;> cases q <;> cases r <;>
      simp_all [toTransport, transportStep, focusRegainedStep]

/-- Witness for C5 at concrete states: `⟨playing, ¬paused, ¬auto⟩` is Playing
and focus loss auto-pauses it; from the auto-paused state a manual request
while unfocused is ignored and focus return resumes playback. -/
theorem transport_autopause_protocol_witness :
    toTransport (transportStep ⟨true, false, false⟩ .focusLost) = .AutoPaused ∧
    transportStep ⟨true, true, true⟩ (.pauseRequest false false) = ⟨true, true, true⟩ ∧
    toTransport (transportStep ⟨true, true, true⟩ .focusRegained) = .Playing :=
  ⟨(transport_autopause_protocol ⟨true, false, false⟩ (by simp [FlagsInv])).1 (by simp [toTransport]),
   ((transport_autopause_protocol ⟨true, true, true⟩ (by simp [FlagsInv])).2.1
      (by simp [toTransport]) false),
   ((transport_autopause_protocol ⟨true, true, true⟩ (by simp [FlagsInv])).2.2.2
      (by simp [toTransport]))⟩

/-! ### Claim C10 -/

/-- C10: the pressed-keys set invariant: `_press_key` changes the set (and
injects a key press) only when the key is absent, `_release_key` only when
present, re-pressing / re-releasing is a no-op, and `_release_all_keys`
always leaves the set empty and releases each pressed key exactly once. -/
theorem pressed_keys_invariant (pressed : List String) (key : String) :
    (key ∈ pressed → press_key pressed key = (pressed, [])) ∧
    (key ∉ pressed →
      press_key pressed key = (key :: pressed, [KeyAction.pressA key])) ∧
    (key ∈ pressed →
      release_key pressed key = (pressed.erase key, [KeyAction.releaseA key])) ∧
    (key ∉ pressed → release_key pressed key = (pressed, [])) ∧
    (release_all_keys pressed).1 = [] ∧
    (pressed.Nodup → (release_all_keys pressed).2 = pressed.map KeyAction.releaseA) := by
  refine ⟨?_, ?_, ?_, ?_, ?_, ?_⟩
  · intro h; simp [press_key, h]
  · intro h; simp [press_key, h]
  · intro h; simp [release_key, h]
  · intro h; simp [release_key, h]
  · simp [release_all_keys]
  · intro hnd
    have := release_fold_actions pressed pressed [] hnd (fun k hk => hk)
    simpa [release_all_keys] using this

/-- Witness for C10 on a concrete two-key state. -/
theorem pressed_keys_invariant_witness :
    press_key ["a", "b"] "a" = (["a", "b"], []) ∧
    press_key ["a", "b"] "q" = (["q", "a", "b"], [KeyAction.pressA "q"]) ∧
    release_key ["a", "b"] "a" = (["b"], [KeyAction.releaseA "a"]) ∧
    (release_all_keys ["a", "b"]).1 = [] ∧
    (release_all_keys ["a", "b"]).2 = [KeyAction.releaseA "a", KeyAction.releaseA "b"] :=
  ⟨(pressed_keys_invariant ["a", "b"] "a").1 (by decide),
   (pressed_keys_invariant ["a", "b"] "q").2.1 (by decide),
   by simpa using (pressed_keys_invariant ["a", "b"] "a").2.2.1 (by decide),
   (pressed_keys_invariant ["a", "b"] "a").2.2.2.2.1,
   by simpa using (pressed_keys_invariant ["a", "b"] "a").2.2.2.2.2 (by decide)⟩

/-! ### Claim C9 -/

/-- C9: `_adjust_note` is a pure function of (raw pitch, offset, config); on
any coherent cache the memoized call returns exactly the fresh value, leaves
the cache coherent, and an immediate second call with the same pitch returns
the identical result.  (Reason the statement is meaningful: the spec-modelled
`PLAYABLE_MIN`/`PLAYABLE_MAX` make `adjust_note` total, see their doc
comments.) -/
theorem adjust_note_cache_correct (cfg : ModeConfig) (cache : List ((ℤ × ℤ) × ℤ))
    (offset note : ℤ) (hc : CacheCoherent cfg cache) :
    (adjust_note_cached cfg cache offset note).1 = adjust_note cfg offset note ∧
    CacheCoherent cfg (adjust_note_cached cfg cache offset note).2 ∧
    (adjust_note_cached cfg (adjust_note_cached cfg cache offset note).2 offset note).1 =
      (adjust_note_cached cfg cache offset note).1 := by
  cases h : cacheLookup (note, offset) cache with
  | some v =>
    have h1 : adjust_note_cached cfg cache offset note = (v, cache) := by
      simp [adjust_note_cached, h]
    rw [h1]
    exact ⟨hc note offset v h, hc, by simp [adjust_note_cached, h]⟩
  | none =>
    have h1 : adjust_note_cached cfg cache offset note =
        (adjust_note cfg offset note,
          ((note, offset), adjust_note cfg offset note) :: cache) := by
      simp [adjust_note_cached, h]
    rw [h1]
    refine ⟨rfl, ?_, ?_⟩
    · intro n o w hl
      simp only [cacheLookup] at hl
      by_cases hk : ((n, o) : ℤ × ℤ) = (note, offset)
      · rw [if_pos hk] at hl
        rw [Prod.ext_iff] at hk
        obtain ⟨hn, ho⟩ := hk
        dsimp at hn ho
        subst hn; subst ho
        exact (Option.some.inj hl).symm
      · rw [if_neg hk] at hl
        exact hc n o w hl
    · simp [adjust_note_cached, cacheLookup]

/-- Witness for C9: fresh call on the empty cache at pitch 60, offset 0
(21-key mode). -/
theorem adjust_note_cache_correct_witness :
    CacheCoherent mode21key [] ∧
    ((adjust_note_cached mode21key [] 0 60).1 = adjust_note mode21key 0 60 ∧
     CacheCoherent mode21key (adjust_note_cached mode21key [] 0 60).2 ∧
     (adjust_note_cached mode21key (adjust_note_cached mode21key [] 0 60).2 0 60).1 =
       (adjust_note_cached mode21key [] 0 60).1) := by
  have hc : CacheCoherent mode21key [] := by
    intro n o v h
    simp [cacheLookup] at h
  exact ⟨hc, adjust_note_cache_correct mode21key [] 0 60 hc⟩

/-! ### Claim C1 -/

/-- The running minimum used by `min(candidates, key=...)` stays in the list. -/
theorem foldl_minBySnd_mem (t : List (ℤ × ℤ)) :
    ∀ h : ℤ × ℤ, (t.foldl (fun b x => if x.2 < b.2 then x else b) h) ∈ h :: t := by
  induction t with
  | nil => intro h; simp
  | cons x t' ih =>
    intro h
    simp only [List.foldl_cons]
    rcases List.mem_cons.mp (ih (if x.2 < h.2 then x else h)) with hm | hm
    · rw [hm]
      by_cases hx : x.2 < h.2
      · simp [hx]
      · simp [hx]
    · simp [hm]

/-- A picked minimum is one of the candidates. -/
theorem pickMinBySnd_mem {l : List (ℤ × ℤ)} {x : ℤ × ℤ}
    (h : pickMinBySnd l = some x) : x ∈ l := by
  cases l with
  | nil => simp [pickMinBySnd] at h
  | cons a t =>
    simp only [pickMinBySnd, Option.some.injEq] at h
    exact h ▸ foldl_minBySnd_mem t a

/-- Every candidate produced by the pentatonic search is in playable range. -/
theorem pentCandidates_range {cfg : ModeConfig} {base shifted : ℤ} {x : ℤ × ℤ}
    (h : x ∈ pentCandidates cfg base shifted) :
    cfg.playable_min ≤ x.1 ∧ x.1 ≤ cfg.playable_max := by
  simp only [pentCandidates, List.mem_filterMap] at h
  obtain ⟨p, _, hp⟩ := h
  by_cases hc : PLAYABLE_MIN cfg ≤ base + p ∧ base + p ≤ PLAYABLE_MAX cfg
  · rw [if_pos hc] at hp
    cases hp
    exact ⟨hc.1, hc.2⟩
  · rw [if_neg hc] at hp
    cases hp

/-- C1: for every raw pitch in `[0, 127]` and every integer offset, the remap
operation returns a pitch inside the inclusive playable range — it always
returns a playable value (the fallback clamp guarantees this even when no
pentatonic candidate is in range). -/
theorem adjust_note_in_range (cfg : ModeConfig) (offset note : ℤ)
    (_h0 : 0 ≤ note) (_h127 : note ≤ 127)
    (hle : cfg.playable_min ≤ cfg.playable_max) :
    cfg.playable_min ≤ adjust_note cfg offset note ∧
      adjust_note cfg offset note ≤ cfg.playable_max := by
  unfold adjust_note
  split_ifs with h1 h2
  · exact ⟨h1.1.1, h1.1.2⟩
  · obtain ⟨x, hx⟩ := Option.isSome_iff_exists.mp h2.2
    rw [hx]
    simpa using pentCandidates_range (pickMinBySnd_mem hx)
  · cases hpick : pickMinBySnd (pentCandidates cfg
        ((octaveAdjust cfg (note + offset) / 12) * 12) (octaveAdjust cfg (note + offset))) with
    | none =>
      simp only [hpick]
      constructor
      · exact le_max_right _ _
      · exact max_le (min_le_right _ _) hle
    | some best =>
      simp only [hpick]
      exact pentCandidates_range (pickMinBySnd_mem hpick)

/-- Witness for C1: pitch 60 at offset 0 in 21-key mode stays playable. -/
theorem adjust_note_in_range_witness :
    (0 : ℤ) ≤ 60 ∧ (60 : ℤ) ≤ 127 ∧
    mode21key.playable_min ≤ adjust_note mode21key 0 60 ∧
      adjust_note mode21key 0 60 ≤ mode21key.playable_max :=
  ⟨by decide, by decide,
   (adjust_note_in_range mode21key 0 60 (by decide) (by decide) (by decide)).1,
   (adjust_note_in_range mode21key 0 60 (by decide) (by decide) (by decide)).2⟩

/-! ### Claim C3 -/

/-- C3 counterexample: on the empty note list `find_best_offset` does not
return the neutral default `(0, 0.0)`; `analyze_notes` raises (`min([])`)
and the exception propagates. -/
theorem find_best_offset_empty_counterexample :
    find_best_offset mode21key [] ≠ some (0, 0) := by
  simp [find_best_offset, analyze_notes]

/-- C3 amended: on the empty note list `find_best_offset` raises (modelled
as `none`) for every mode configuration, instead of returning `(0, 0.0)`. -/
theorem find_best_offset_empty_raises (cfg : ModeConfig) :
    find_best_offset cfg [] = none := by
  simp [find_best_offset, analyze_notes]

/-! ### Claim C7 -/

/-- C7 counterexample: statistics aggregation fails on the one-element list
`[60]` (`np.max` of the empty delta array raises), although the claim says it
succeeds on every non-empty list with empty per-step deltas. -/
theorem analyze_notes_singleton_counterexample :
    analyze_notes [60] = none := by
  simp [analyze_notes, analyze_melody_line]

/-- C7 amended: `analyze_notes` succeeds exactly on lists with at least two
notes; it fails both on the empty list (`min([])` raises) and on one-element
lists (`np.max` of the empty `np.diff` raises). -/
theorem analyze_notes_isSome_iff (notes : List ℤ) :
    (analyze_notes notes).isSome ↔ 2 ≤ notes.length := by
  match notes with
  | [] => simp [analyze_notes]
  | [x] => simp [analyze_notes, analyze_melody_line]
  | x :: y :: t => simp [analyze_notes, analyze_melody_line]

/-! ### Claim C2 -/

/-- The average absolute per-step pitch change (`avg_change` of the melody
analysis), written as a standalone quantity. -/
def avg_abs_step (notes : List ℤ) : ℚ :=
  ((((noteChanges notes).map (fun c => |c|)).sum : ℤ) : ℚ) /
    (((noteChanges notes).map (fun c => |c|)).length : ℚ)

/-- The amended melody formula of C2: 70% deviation-closeness (which for a
uniform shift collapses to an inverse-normalized `|offset|`) and 30%
step-smoothness capped at a 12-semitone span. -/
def melody_score_amended (notes : List ℤ) (offset : ℤ) : ℚ :=
  (1 / (1 + |(offset : ℚ)| / 12)) * (7/10) +
    (1 - min (avg_abs_step notes / 12) 1) * (3/10)

/-- The formula the claim states (spec side of the comparison): 30%
deviation-closeness and 70% step-smoothness, over the same statistics the
code uses. -/
def melody_score_claimed (stats : Stats) (offset : ℤ) : ℚ :=
  match stats.melody_line with
  | none => 0
  | some m =>
    let original_notes := stats.distribution.map (fun p => p.1)
    let shifted_notes := original_notes.map (fun n => n + offset)
    let deviation_sum : ℤ := ((shifted_notes.zip original_notes).map (fun p => |p.1 - p.2|)).sum
    let avg_deviation : ℚ := (deviation_sum : ℚ) / (original_notes.length : ℚ)
    let deviation_score : ℚ := 1 / (1 + avg_deviation / 12)
    let change_score : ℚ := 1 - (if m.avg_change ≤ 12 then m.avg_change / 12 else 1)
    deviation_score * (3/10) + change_score * (7/10)

/-- The stats record computed by `analyze_notes [60, 62]`. -/
def statsC2 : Stats :=
  { min_note := 60, max_note := 62, noteRange := 2
    distribution := [(60, 1), (62, 1)]
    melody_line := some { avg_change := 2, max_change := 2, direction_changes := 0 }
    transitions := [((60, 62), 1)]
    density := { total_notes := 2, unique_notes := 2, octave_distribution := [(5, 2)] } }

/-- C2 counterexample: on the notes `[60, 62]` at offset `5`, the melody
sub-score the code computes differs from the claimed 30% deviation / 70%
smoothness blend — the code weights deviation 70% and smoothness 30%. -/
theorem melody_score_weights_counterexample :
    analyze_notes [60, 62] = some statsC2 ∧
    calculate_melody_score statsC2 5 ≠ melody_score_claimed statsC2 5 := by
  constructor
  · simp [analyze_notes, analyze_melody_line, noteChanges, statsC2, tally, tallyAdd,
      analyze_transitions, analyze_density, listMin, listMax]
  · simp only [calculate_melody_score, melody_score_claimed, statsC2]
    norm_num

/-- `tallyAdd` never returns the empty list. -/
theorem tallyAdd_length_pos (l : List (ℤ × ℕ)) (k : ℤ) (c : ℕ) :
    0 < (tallyAdd l k c).length := by
  cases l with
  | nil => simp [tallyAdd]
  | cons p rest =>
    rcases p with ⟨k', c'⟩
    by_cases h : k = k' <;> simp [tallyAdd, h]

/-- Folding `tallyAdd` preserves non-emptiness of the accumulator. -/
theorem foldl_tallyAdd_length_pos (l : List ℤ) :
    ∀ acc : List (ℤ × ℕ), 0 < acc.length →
      0 < (l.foldl (fun a k => tallyAdd a k 1) acc).length := by
  induction l with
  | nil => intro acc h; simpa using h
  | cons x rest ih =>
    intro acc _
    simpa using ih (tallyAdd acc x 1) (tallyAdd_length_pos acc x 1)

/-- The distribution of a non-empty note list is non-empty. -/
theorem tally_length_pos (notes : List ℤ) (h : notes ≠ []) : 0 < (tally notes).length := by
  cases notes with
  | nil => exact absurd rfl h
  | cons x rest =>
    simp only [tally, List.foldl_cons]
    exact foldl_tallyAdd_length_pos rest (tallyAdd [] x 1) (tallyAdd_length_pos [] x 1)

/-- The per-pitch deviation of a uniform shift is constantly `|offset|`. -/
theorem zip_shift_abs (l : List ℤ) (offset : ℤ) :
    ((l.map (fun n => n + offset)).zip l).map (fun p => |p.1 - p.2|) =
      l.map (fun _ => |offset|) := by
  induction l with
  | nil => simp
  | cons x rest ih =>
    simp only [List.map_cons, List.zip_cons_cons]
    rw [show x + offset - x = offset from by ring, ih]

/-- Summing a constant list of integers. -/
theorem sum_map_const_int (l : List ℤ) (c : ℤ) :
    (l.map (fun _ => c)).sum = l.length * c := by
  induction l with
  | nil => simp
  | cons x rest ih => simp [ih, add_mul, add_comm]

/-- The step-smoothness cap: the source's conditional is the capped ratio. -/
theorem ite_cap_eq_min (q : ℚ) :
    (1 : ℚ) - (if q ≤ 12 then q / 12 else 1) = 1 - min (q / 12) 1 := by
  by_cases hq : q ≤ 12
  · rw [if_pos hq, min_eq_left ((div_le_one (by norm_num)).mpr hq)]
  · rw [if_neg hq, min_eq_right (le_of_lt ((one_lt_div (by norm_num)).mpr (lt_of_not_le hq)))]

/-- C2 amended: whenever the aggregation succeeds, the melody sub-score
equals a blend weighted 70% on deviation-closeness (which collapses to the
inverse-normalized `|offset|`, since the shift is uniform) and 30% on
step-smoothness capped at a 12-semitone span — the claim's 30/70 weighting
is reversed in the code. -/
theorem melody_score_70_30 (notes : List ℤ) (offset : ℤ) (stats : Stats)
    (h : analyze_notes notes = some stats) :
    calculate_melody_score stats offset = melody_score_amended notes offset := by
  match notes with
  | [] => simp [analyze_notes] at h
  | [x] => simp [analyze_notes, analyze_melody_line] at h
  | x :: y :: t =>
    have hne : (x :: y :: t : List ℤ) ≠ [] := by simp
    simp only [analyze_notes, analyze_melody_line] at h
    injection h with h'
    subst h'
    simp only [calculate_melody_score, melody_score_amended, avg_abs_step]
    have hlen : 0 < (tally (x :: y :: t)).length := tally_length_pos _ hne
    have hmaplen : ((tally (x :: y :: t)).map (fun p => p.1)).length =
        (tally (x :: y :: t)).length := List.length_map _ _
    have hdev : ((((tally (x :: y :: t)).map (fun p => p.1)).map (fun n => n + offset)).zip
        ((tally (x :: y :: t)).map (fun p => p.1))).map (fun p => |p.1 - p.2|) =
        ((tally (x :: y :: t)).map (fun p => p.1)).map (fun _ => |offset|) :=
      zip_shift_abs _ offset
    rw [hdev, sum_map_const_int]
    set L := ((tally (x :: y :: t)).map (fun p => p.1)).length with hLdef
    have hLpos : 0 < L := by
      rw [hLdef, List.length_map]
      exact hlen
    have hLQ : ((L : ℕ) : ℚ) ≠ 0 := by
      exact_mod_cast hLpos.ne'
    have havg : (((L : ℤ) * |offset| : ℤ) : ℚ) / (L : ℚ) = |(offset : ℚ)| := by
      push_cast
      rw [mul_comm, mul_div_assoc, div_self hLQ, mul_one]
    rw [havg, ite_cap_eq_min]

/-- Witness for C2 at `notes = [60, 62]`, `offset = 5`. -/
theorem melody_score_70_30_witness :
    analyze_notes [60, 62] = some statsC2 ∧
    calculate_melody_score statsC2 5 = melody_score_amended [60, 62] 5 :=
  ⟨melody_score_weights_counterexample.1,
   melody_score_70_30 [60, 62] 5 statsC2 melody_score_weights_counterexample.1⟩

/-! ### Claim C6 -/

/-- Spec side of C6: the claimed search-window center
`round(target_center - original_center)`. -/
def roundedCenter (cfg : ModeConfig) (stats : Stats) : ℤ :=
  round ((((cfg.playable_min + cfg.playable_max : ℤ) : ℚ)) / 2 -
         (((stats.min_note + stats.max_note : ℤ) : ℚ)) / 2)

/-- The stats record computed by `analyze_notes [60, 60]`. -/
def statsC6 : Stats :=
  { min_note := 60, max_note := 60, noteRange := 0
    distribution := [(60, 2)]
    melody_line := some { avg_change := 0, max_change := 0, direction_changes := 0 }
    transitions := [((60, 60), 1)]
    density := { total_notes := 2, unique_notes := 1, octave_distribution := [(5, 2)] } }

/-- `analyze_notes [60, 60]` evaluates to `statsC6`. -/
theorem analyze_notes_60_60 : analyze_notes [60, 60] = some statsC6 := by
  simp [analyze_notes, analyze_melody_line, noteChanges, statsC6, tally, tallyAdd,
    analyze_transitions, analyze_density, listMin, listMax]

/-- The code's truncated center for `[60, 60]` in 21-key mode:
`int(65.5 - 60) = 5`. -/
theorem suggested_offset_statsC6 : suggested_offset mode21key statsC6 = 5 := by
  have h1 : (((mode21key.playable_min + mode21key.playable_max : ℤ) : ℚ)) / 2 -
      (((statsC6.min_note + statsC6.max_note : ℤ) : ℚ)) / 2 = 11/2 := by
    simp only [mode21key, statsC6]
    norm_num
  unfold suggested_offset
  rw [h1]
  unfold ratTrunc
  rw [if_pos (by norm_num)]
  rw [Int.floor_eq_iff]
  constructor <;> norm_num

/-- The claimed rounded center for `[60, 60]` in 21-key mode:
`round(65.5 - 60) = 6`. -/
theorem roundedCenter_statsC6 : roundedCenter mode21key statsC6 = 6 := by
  have h1 : (((mode21key.playable_min + mode21key.playable_max : ℤ) : ℚ)) / 2 -
      (((statsC6.min_note + statsC6.max_note : ℤ) : ℚ)) / 2 = 11/2 := by
    simp only [mode21key, statsC6]
    norm_num
  unfold roundedCenter
  rw [h1, round_eq]
  rw [show (11/2 : ℚ) + 1/2 = 6 from by norm_num]
  exact_mod_cast Int.floor_intCast 6

/-- The offset `-7` is among the candidates scanned for `[60, 60]`. -/
theorem neg7_mem_candidateList : (-7 : ℤ) ∈ candidateList mode21key statsC6 := by
  simp only [candidateList]
  rw [suggested_offset_statsC6]
  have hmin : max (mode21key.playable_min - statsC6.max_note) (5 - 12 : ℤ) = -7 := by
    simp only [mode21key, statsC6]
    norm_num
  have hmax : min (mode21key.playable_max - statsC6.min_note) (5 + 12 : ℤ) = 17 := by
    simp only [mode21key, statsC6]
    norm_num
  rw [hmin, hmax]
  simp only [List.mem_map, List.mem_range]
  exact ⟨0, by decide, by norm_num⟩

/-- C6 counterexample: on the note list `[60, 60]` in 21-key mode,
`find_best_offset` evaluates the candidate offset `-7`, which is 13 semitones
from `round(target_center - original_center) = 6`; the code centers the
window on the *truncated* difference `int(5.5) = 5`, not on the rounded one. -/
theorem candidate_window_counterexample :
    analyze_notes [60, 60] = some statsC6 ∧
    (-7 : ℤ) ∈ candidateOffsets mode21key [60, 60] ∧
    ¬ (roundedCenter mode21key statsC6 - 12 ≤ (-7 : ℤ) ∧
       (-7 : ℤ) ≤ roundedCenter mode21key statsC6 + 12) := by
  refine ⟨analyze_notes_60_60, ?_, ?_⟩
  · unfold candidateOffsets
    rw [analyze_notes_60_60]
    exact neg7_mem_candidateList
  · rw [roundedCenter_statsC6]
    norm_num

/-- C6 amended: every candidate offset evaluated by `find_best_offset` lies
within ±12 semitones of the *truncation toward zero* of
`target_center - original_center` (the code's `int(...)`, which differs from
rounding at half-integers), and within the clip bounds
`playable_min - max_pitch ≤ offset ≤ playable_max - min_pitch`. -/
theorem candidate_window_bounds (cfg : ModeConfig) (stats : Stats) (o : ℤ)
    (h : o ∈ candidateList cfg stats) :
    suggested_offset cfg stats - 12 ≤ o ∧ o ≤ suggested_offset cfg stats + 12 ∧
    cfg.playable_min - stats.max_note ≤ o ∧ o ≤ cfg.playable_max - stats.min_note := by
  obtain ⟨i, hmem, heq⟩ := List.mem_map.mp h
  have hi := List.mem_range.mp hmem
  subst heq
  have h1 : suggested_offset cfg stats - 12 ≤
      max (cfg.playable_min - stats.max_note) (suggested_offset cfg stats - 12) :=
    le_max_right _ _
  have h2 : cfg.playable_min - stats.max_note ≤
      max (cfg.playable_min - stats.max_note) (suggested_offset cfg stats - 12) :=
    le_max_left _ _
  have h3 : min (cfg.playable_max - stats.min_note) (suggested_offset cfg stats + 12) ≤
      cfg.playable_max - stats.min_note :=
    min_le_left _ _
  have h4 : min (cfg.playable_max - stats.min_note) (suggested_offset cfg stats + 12) ≤
      suggested_offset cfg stats + 12 :=
    min_le_right _ _
  have hi' := Int.lt_toNat.mp hi
  have hnn : (0 : ℤ) ≤ (i : ℤ) := Int.natCast_nonneg i
  exact ⟨by linarith, by linarith, by linarith, by linarith⟩

/-- Witness for C6: the candidate `-7` of `[60, 60]` satisfies the amended
bounds. -/
theorem candidate_window_bounds_witness :
    (-7 : ℤ) ∈ candidateList mode21key statsC6 ∧
    (suggested_offset mode21key statsC6 - 12 ≤ (-7 : ℤ) ∧
     (-7 : ℤ) ≤ suggested_offset mode21key statsC6 + 12 ∧
     mode21key.playable_min - statsC6.max_note ≤ (-7 : ℤ) ∧
     (-7 : ℤ) ≤ mode21key.playable_max - statsC6.min_note) :=
  ⟨neg7_mem_candidateList,
   candidate_window_bounds mode21key statsC6 (-7) neg7_mem_candidateList⟩

/-! ### Sorting lemmas for `from_midi` -/

/-- Membership through `stableInsert`. -/
theorem mem_stableInsert {α : Type} (lt : α → α → Bool) (x a : α) :
    ∀ l : List α, a ∈ stableInsert lt x l ↔ a = x ∨ a ∈ l := by
  intro l
  induction l with
  | nil => simp [stableInsert]
  | cons y ys ih =>
    by_cases h : lt y x = true
    · rw [stableInsert, if_pos h]
      simp only [List.mem_cons, ih]
      tauto
    · rw [stableInsert, if_neg h]
      simp only [List.mem_cons]

/-- `stableInsert` preserves pairwise order for a relation compatible with
the Boolean comparison. -/
theorem pairwise_stableInsert {α : Type} {R : α → α → Prop} (lt : α → α → Bool)
    (hT : ∀ a b, lt a b = true → R a b) (hF : ∀ a b, lt a b = false → R b a)
    (htrans : ∀ a b c, R a b → R b c → R a c) (x : α) :
    ∀ l : List α, l.Pairwise R → (stableInsert lt x l).Pairwise R := by
  intro l
  induction l with
  | nil => intro _; simp [stableInsert]
  | cons y ys ih =>
    intro hp
    rcases List.pairwise_cons.mp hp with ⟨hy, hys⟩
    by_cases h : lt y x = true
    · rw [stableInsert, if_pos h]
      refine List.pairwise_cons.mpr ⟨?_, ih hys⟩
      intro z hz
      rcases (mem_stableInsert lt x z ys).mp hz with rfl | hz'
      · exact hT y z h
      · exact hy z hz'
    · rw [stableInsert, if_neg h]
      refine List.pairwise_cons.mpr ⟨?_, hp⟩
      intro z hz
      rcases List.mem_cons.mp hz with rfl | hz'
      · exact hF z x (Bool.not_eq_true _ ▸ h)
      · exact htrans x y z (hF y x (Bool.not_eq_true _ ▸ h)) (hy z hz')

/-- `stableSort` sorts with respect to any relation compatible with the
Boolean comparison. -/
theorem pairwise_stableSort {α : Type} {R : α → α → Prop} (lt : α → α → Bool)
    (hT : ∀ a b, lt a b = true → R a b) (hF : ∀ a b, lt a b = false → R b a)
    (htrans : ∀ a b c, R a b → R b c → R a c) :
    ∀ l : List α, (stableSort lt l).Pairwise R := by
  intro l
  induction l with
  | nil => simp [stableSort]
  | cons x xs ih => exact pairwise_stableInsert lt hT hF htrans x _ ih

/-- A relation holding for all pairs holds pairwise on any list. -/
theorem pairwise_of_total {α : Type} {R : α → α → Prop} (h : ∀ a b, R a b) :
    ∀ l : List α, l.Pairwise R := by
  intro l
  induction l with
  | nil => simp
  | cons x xs ih => exact List.pairwise_cons.mpr ⟨fun z _ => h x z, ih⟩

/-! ### Time-conversion lemmas -/

/-- `ticks_to_ms` is non-negative. -/
theorem ticks_to_ms_nonneg (tpb ticks tempo : ℕ) : 0 ≤ ticks_to_ms tpb ticks tempo := by
  unfold ticks_to_ms
  positivity

/-- `ticks_to_ms` is monotone in the tick count. -/
theorem ticks_to_ms_mono (tpb tempo : ℕ) {a b : ℕ} (h : a ≤ b) :
    ticks_to_ms tpb a tempo ≤ ticks_to_ms tpb b tempo := by
  unfold ticks_to_ms
  have hnum : ((a * tempo : ℕ) : ℚ) ≤ ((b * tempo : ℕ) : ℚ) := by
    exact_mod_cast Nat.mul_le_mul_right tempo h
  have hden : (0 : ℚ) ≤ (((tpb * 1000 : ℕ) : ℚ)) := by positivity
  exact div_le_div_of_nonneg_right hnum hden |>.trans_eq rfl

/-- `ticks_to_ms` is strictly monotone in the tick count when the tempo and
resolution are positive. -/
theorem ticks_to_ms_strict (tpb tempo : ℕ) (htpb : 0 < tpb) (htempo : 0 < tempo)
    {a b : ℕ} (h : a < b) : ticks_to_ms tpb a tempo < ticks_to_ms tpb b tempo := by
  unfold ticks_to_ms
  have hnum : ((a * tempo : ℕ) : ℚ) < ((b * tempo : ℕ) : ℚ) := by
    exact_mod_cast (Nat.mul_lt_mul_right htempo).mpr h
  have hden : (0 : ℚ) < (((tpb * 1000 : ℕ) : ℚ)) := by positivity
  exact div_lt_div_of_pos_right hnum hden

/-- `calculate_real_time` never goes below its accumulated time. -/
theorem realTime_ge (tpb : ℕ) :
    ∀ (tcs : List (ℕ × ℕ)) (lastTick : ℕ) (lastTime : ℚ) (curTempo tick : ℕ),
      lastTime ≤ realTime tpb tcs lastTick lastTime curTempo tick := by
  intro tcs
  induction tcs with
  | nil =>
    intro lastTick lastTime curTempo tick
    simpa [realTime] using ticks_to_ms_nonneg tpb (tick - lastTick) curTempo
  | cons c rest ih =>
    intro lastTick lastTime curTempo tick
    rcases c with ⟨ct, ctempo⟩
    by_cases h : tick < ct
    · simpa [realTime, h] using ticks_to_ms_nonneg tpb (tick - lastTick) curTempo
    · simp only [realTime, if_neg h]
      calc lastTime ≤ lastTime + ticks_to_ms tpb (ct - lastTick) curTempo := by
            simpa using ticks_to_ms_nonneg tpb (ct - lastTick) curTempo
        _ ≤ _ := ih ct _ ctempo tick

/-- `calculate_real_time` is monotone in the tick. -/
theorem realTime_mono (tpb : ℕ) :
    ∀ (tcs : List (ℕ × ℕ)) (lastTick : ℕ) (lastTime : ℚ) (curTempo : ℕ) {t1 t2 : ℕ},
      t1 ≤ t2 →
      realTime tpb tcs lastTick lastTime curTempo t1 ≤
        realTime tpb tcs lastTick lastTime curTempo t2 := by
  intro tcs
  induction tcs with
  | nil =>
    intro lastTick lastTime curTempo t1 t2 h
    simpa [realTime] using
      ticks_to_ms_mono tpb curTempo (Nat.sub_le_sub_right h lastTick)
  | cons c rest ih =>
    intro lastTick lastTime curTempo t1 t2 h
    rcases c with ⟨ct, ctempo⟩
    by_cases h2 : t2 < ct
    · have h1 : t1 < ct := lt_of_le_of_lt h h2
      simpa [realTime, h1, h2] using
        ticks_to_ms_mono tpb curTempo (Nat.sub_le_sub_right h lastTick)
    · by_cases h1 : t1 < ct
      · simp only [realTime, if_pos h1, if_neg h2]
        calc lastTime + ticks_to_ms tpb (t1 - lastTick) curTempo
            ≤ lastTime + ticks_to_ms tpb (ct - lastTick) curTempo := by
              have := ticks_to_ms_mono tpb curTempo
                (Nat.sub_le_sub_right (le_of_lt h1) lastTick)
              linarith
          _ ≤ _ := realTime_ge tpb rest ct _ ctempo t2
      · simp only [realTime, if_neg h1, if_neg h2]
        exact ih ct _ ctempo h

/-- `calculate_real_time` is strictly monotone in the tick when the
resolution and all tempi are positive. -/
theorem realTime_strict (tpb : ℕ) (htpb : 0 < tpb) :
    ∀ (tcs : List (ℕ × ℕ)) (lastTick : ℕ) (lastTime : ℚ) (curTempo : ℕ) {t1 t2 : ℕ},
      (∀ p ∈ tcs, 0 < p.2) → 0 < curTempo → lastTick ≤ t1 → t1 < t2 →
      realTime tpb tcs lastTick lastTime curTempo t1 <
        realTime tpb tcs lastTick lastTime curTempo t2 := by
  intro tcs
  induction tcs with
  | nil =>
    intro lastTick lastTime curTempo t1 t2 _ hcur hle h
    have : t1 - lastTick < t2 - lastTick := by omega
    simpa [realTime] using ticks_to_ms_strict tpb curTempo htpb hcur this
  | cons c rest ih =>
    intro lastTick lastTime curTempo t1 t2 htcs hcur hle h
    rcases c with ⟨ct, ctempo⟩
    have hct : 0 < ctempo := htcs (ct, ctempo) (by simp)
    have hrest : ∀ p ∈ rest, 0 < p.2 := fun p hp => htcs p (by simp [hp])
    by_cases h2 : t2 < ct
    · have h1 : t1 < ct := lt_trans h h2
      have : t1 - lastTick < t2 - lastTick := by omega
      simpa [realTime, h1, h2] using ticks_to_ms_strict tpb curTempo htpb hcur this
    · by_cases h1 : t1 < ct
      · simp only [realTime, if_pos h1, if_neg h2]
        have hstep : lastTime + ticks_to_ms tpb (t1 - lastTick) curTempo <
            lastTime + ticks_to_ms tpb (ct - lastTick) curTempo := by
          have : t1 - lastTick < ct - lastTick := by omega
          have := ticks_to_ms_strict tpb curTempo htpb hcur this
          linarith
        exact lt_of_lt_of_le hstep (realTime_ge tpb rest ct _ ctempo t2)
      · simp only [realTime, if_neg h1, if_neg h2]
        exact ih ct _ ctempo hrest hct (by omega) h

/-! ### Conversion lemmas for `from_midi` -/

/-- The event a kept raw event is converted to (the `KeyEvent(...)`
constructor call in the conversion loop). -/
def mkEvt (cfg : ModeConfig) (offset : ℤ) (tcs : List (ℕ × ℕ)) (tpb : ℕ)
    (e : RawEvent) : KeyEvt :=
  { key := (alookup ((e.note : ℤ) + offset) cfg.note_to_key).getD ""
    press := e.is_press
    time := realTime tpb tcs 0 0 500000 e.tick
    note := (e.note : ℤ) + offset
    velocity := if e.is_press then e.velocity else 0 }

/-- Every converted event originates from some raw event of the input. -/
theorem convertEvents_origin (cfg : ModeConfig) (offset : ℤ) (tcs : List (ℕ × ℕ))
    (tpb : ℕ) :
    ∀ (l : List RawEvent) (states : List (ℤ × Bool)) (ev : KeyEvt),
      ev ∈ convertEvents cfg offset tcs tpb states l →
      ∃ e ∈ l, ev = mkEvt cfg offset tcs tpb e := by
  intro l
  induction l with
  | nil =>
    intro states ev h
    simp [convertEvents] at h
  | cons e rest ih =>
    intro states ev h
    rw [convertEvents] at h
    by_cases h1 : cfg.playable_min ≤ (e.note : ℤ) + offset ∧
        (e.note : ℤ) + offset ≤ cfg.playable_max
    · rw [if_pos h1] at h
      cases hlook : alookup ((e.note : ℤ) + offset) cfg.note_to_key with
      | none =>
        rw [hlook] at h
        dsimp only at h
        obtain ⟨e', he', heq⟩ := ih states ev h
        exact ⟨e', List.mem_cons_of_mem e he', heq⟩
      | some key =>
        rw [hlook] at h
        dsimp only at h
        by_cases h2 : e.is_press ≠ stateGet states ((e.note : ℤ) + offset)
        · rw [if_pos h2] at h
          rcases List.mem_cons.mp h with rfl | h'
          · exact ⟨e, by simp, by simp [mkEvt, hlook]⟩
          · obtain ⟨e', he', heq⟩ := ih _ ev h'
            exact ⟨e', List.mem_cons_of_mem e he', heq⟩
        · rw [if_neg h2] at h
          obtain ⟨e', he', heq⟩ := ih states ev h
          exact ⟨e', List.mem_cons_of_mem e he', heq⟩
    · rw [if_neg h1] at h
      obtain ⟨e', he', heq⟩ := ih states ev h
      exact ⟨e', List.mem_cons_of_mem e he', heq⟩

/-- With a resolved key lookup, the conversion loop's event literal is
`mkEvt`. -/
theorem mkEvt_eq_build (cfg : ModeConfig) (offset : ℤ) (tcs : List (ℕ × ℕ)) (tpb : ℕ)
    (e : RawEvent) (key : String)
    (hlook : alookup ((e.note : ℤ) + offset) cfg.note_to_key = some key) :
    mkEvt cfg offset tcs tpb e =
      { key := key, press := e.is_press, time := realTime tpb tcs 0 0 500000 e.tick,
        note := (e.note : ℤ) + offset, velocity := if e.is_press then e.velocity else 0 } := by
  simp [mkEvt, hlook]

/-- Pairwise order is transferred from the raw events to the converted
events (the conversion is an order-preserving, state-filtered map). -/
theorem convertEvents_pairwise (cfg : ModeConfig) (offset : ℤ) (tcs : List (ℕ × ℕ))
    (tpb : ℕ) {R : RawEvent → RawEvent → Prop} {S : KeyEvt → KeyEvt → Prop}
    (hRS : ∀ a b, R a b → S (mkEvt cfg offset tcs tpb a) (mkEvt cfg offset tcs tpb b)) :
    ∀ (l : List RawEvent) (states : List (ℤ × Bool)), l.Pairwise R →
      (convertEvents cfg offset tcs tpb states l).Pairwise S := by
  intro l
  induction l with
  | nil =>
    intro states _
    simp [convertEvents]
  | cons e rest ih =>
    intro states hp
    obtain ⟨he, hrest⟩ := List.pairwise_cons.mp hp
    rw [convertEvents]
    by_cases h1 : cfg.playable_min ≤ (e.note : ℤ) + offset ∧
        (e.note : ℤ) + offset ≤ cfg.playable_max
    · rw [if_pos h1]
      cases hlook : alookup ((e.note : ℤ) + offset) cfg.note_to_key with
      | none => exact ih states hrest
      | some key =>
        dsimp only
        by_cases h2 : e.is_press ≠ stateGet states ((e.note : ℤ) + offset)
        · rw [if_pos h2]
          refine List.pairwise_cons.mpr ⟨?_, ih _ hrest⟩
          intro ev hev
          obtain ⟨e', he', heq⟩ := convertEvents_origin cfg offset tcs tpb rest _ ev hev
          rw [← mkEvt_eq_build cfg offset tcs tpb e key hlook, heq]
          exact hRS e e' (he e' he')
        · rw [if_neg h2]
          exact ih states hrest
    · rw [if_neg h1]
      exact ih states hrest

/-- Membership through `stableSort`. -/
theorem mem_stableSort {α : Type} (lt : α → α → Bool) (a : α) :
    ∀ l : List α, a ∈ stableSort lt l ↔ a ∈ l := by
  intro l
  induction l with
  | nil => simp [stableSort]
  | cons x xs ih =>
    rw [stableSort, mem_stableInsert lt x a, ih, List.mem_cons]

/-- The second component of the sort key
`(x['tick'], not x['is_press'])`: presses order before releases. -/
def pressBit (e : RawEvent) : ℕ := if e.is_press then 0 else 1

/-- The ordering the raw-event sort establishes. -/
def RawLe (a b : RawEvent) : Prop :=
  a.tick < b.tick ∨ (a.tick = b.tick ∧ pressBit a ≤ pressBit b)

/-- A true comparison implies the order. -/
theorem rawLt_true_rawLe (a b : RawEvent) (h : rawLt a b = true) : RawLe a b := by
  have h' := of_decide_eq_true h
  rcases h' with h' | ⟨ht, hpa, hpb⟩
  · exact Or.inl h'
  · exact Or.inr ⟨ht, by simp [pressBit, hpa, hpb]⟩

/-- A false comparison implies the reverse order. -/
theorem rawLt_false_rawLe (a b : RawEvent) (h : rawLt a b = false) : RawLe b a := by
  have h' := of_decide_eq_false h
  push_neg at h'
  obtain ⟨h1, h2⟩ := h'
  rcases Nat.lt_or_ge b.tick a.tick with hlt | hge
  · exact Or.inl hlt
  · have heq : a.tick = b.tick := le_antisymm hge h1
    refine Or.inr ⟨heq.symm, ?_⟩
    by_cases hb : b.is_press = true
    · simp [pressBit, hb]
    · have hbf : b.is_press = false := by simpa using hb
      by_cases ha : a.is_press = true
      · exact absurd hbf (h2 heq ha)
      · simp [pressBit, ha, hbf]

/-- `RawLe` is transitive. -/
theorem rawLe_trans (a b c : RawEvent) (h1 : RawLe a b) (h2 : RawLe b c) : RawLe a c := by
  rcases h1 with h1 | ⟨e1, p1⟩ <;> rcases h2 with h2 | ⟨e2, p2⟩
  · exact Or.inl (lt_trans h1 h2)
  · exact Or.inl (e2 ▸ h1)
  · exact Or.inl (e1 ▸ h2)
  · exact Or.inr ⟨e1.trans e2, le_trans p1 p2⟩

/-! ### Ordering of the produced event log -/

/-- Raw-event order transfers to the strict converted order when the
resolution and all tempi are positive. -/
theorem rawLe_mkEvt_ord (cfg : ModeConfig) (offset : ℤ) (tcs : List (ℕ × ℕ)) (tpb : ℕ)
    (htpb : 0 < tpb) (htcs : ∀ p ∈ tcs, 0 < p.2) (a b : RawEvent) (h : RawLe a b) :
    (mkEvt cfg offset tcs tpb a).time ≤ (mkEvt cfg offset tcs tpb b).time ∧
    ((mkEvt cfg offset tcs tpb a).time = (mkEvt cfg offset tcs tpb b).time →
      ((mkEvt cfg offset tcs tpb b).press → (mkEvt cfg offset tcs tpb a).press)) := by
  rcases h with hlt | ⟨heq, hbit⟩
  · have hstrict : realTime tpb tcs 0 0 500000 a.tick < realTime tpb tcs 0 0 500000 b.tick :=
      realTime_strict tpb htpb tcs 0 0 500000 htcs (by norm_num) (Nat.zero_le _) hlt
    constructor
    · simpa [mkEvt] using le_of_lt hstrict
    · intro he
      rw [show (mkEvt cfg offset tcs tpb a).time = realTime tpb tcs 0 0 500000 a.tick from rfl,
        show (mkEvt cfg offset tcs tpb b).time = realTime tpb tcs 0 0 500000 b.tick from rfl] at he
      exact absurd he (ne_of_lt hstrict)
  · constructor
    · simp [mkEvt, heq]
    · intro _ hb
      have hb' : b.is_press = true := by simpa [mkEvt] using hb
      have ha' : a.is_press = true := by
        by_cases ha : a.is_press = true
        · exact ha
        · exfalso
          simp [pressBit, ha, hb'] at hbit
      simpa [mkEvt] using ha'

/-- Raw-event order transfers to weak time order unconditionally. -/
theorem rawLe_mkEvt_time (cfg : ModeConfig) (offset : ℤ) (tcs : List (ℕ × ℕ)) (tpb : ℕ)
    (a b : RawEvent) (h : RawLe a b) :
    (mkEvt cfg offset tcs tpb a).time ≤ (mkEvt cfg offset tcs tpb b).time := by
  have htick : a.tick ≤ b.tick := by
    rcases h with h | ⟨h, _⟩
    · exact le_of_lt h
    · exact le_of_eq h
  simpa [mkEvt] using realTime_mono tpb tcs 0 0 500000 htick

/-- The real part of the log is sorted: times never decrease, and at equal
times a press never precedes a release (presses sort first). -/
theorem realEvents_sorted (cfg : ModeConfig) (offset : ℤ) (sel : Option ℕ) (tpb : ℕ)
    (tracks : List (List TimedMsg)) (htpb : 0 < tpb)
    (htempo : ∀ p ∈ (collectAll sel tracks).2, 0 < p.2) :
    (realEvents cfg offset sel tpb tracks).Pairwise
      (fun a b => a.time ≤ b.time ∧ (a.time = b.time → (b.press → a.press))) := by
  have htcs' : ∀ p ∈ stableSort tempoLt (collectAll sel tracks).2, 0 < p.2 :=
    fun p hp => htempo p ((mem_stableSort tempoLt p _).mp hp)
  exact convertEvents_pairwise cfg offset _ tpb
    (fun a b hab => rawLe_mkEvt_ord cfg offset _ tpb htpb htcs' a b hab) _ _
    (pairwise_stableSort rawLt rawLt_true_rawLe rawLt_false_rawLe rawLe_trans _)

/-- The real part of the log has non-decreasing timestamps, for every input. -/
theorem realEvents_time_sorted (cfg : ModeConfig) (offset : ℤ) (sel : Option ℕ) (tpb : ℕ)
    (tracks : List (List TimedMsg)) :
    (realEvents cfg offset sel tpb tracks).Pairwise (fun a b => a.time ≤ b.time) :=
  convertEvents_pairwise cfg offset _ tpb
    (fun a b hab => rawLe_mkEvt_time cfg offset _ tpb a b hab) _ _
    (pairwise_stableSort rawLt rawLt_true_rawLe rawLt_false_rawLe rawLe_trans _)

/-- In a time-sorted log every event is at or before the last event. -/
theorem time_le_lastEventTime :
    ∀ evs : List KeyEvt, evs.Pairwise (fun a b => a.time ≤ b.time) →
      ∀ a ∈ evs, a.time ≤ lastEventTime evs := by
  intro evs
  induction evs with
  | nil =>
    intro _ a ha
    simp at ha
  | cons x t ih =>
    intro hp a ha
    obtain ⟨hx, ht⟩ := List.pairwise_cons.mp hp
    cases t with
    | nil =>
      have hax : a = x := by simpa using ha
      subst hax
      simp [lastEventTime]
    | cons y t' =>
      have hlast : lastEventTime (x :: y :: t') = lastEventTime (y :: t') := by
        simp [lastEventTime]
      rcases List.mem_cons.mp ha with rfl | ha'
      · have hne : (y :: t' : List KeyEvt) ≠ [] := List.cons_ne_nil y t'
        have he := List.getLast?_eq_getLast_of_ne_nil hne
        have hemem : (y :: t').getLast hne ∈ y :: t' := List.getLast_mem hne
        rw [hlast]
        unfold lastEventTime
        rw [he]
        exact hx _ hemem
      · rw [hlast]
        exact ih ht a ha'

/-- A relation holding for all pairs of members holds pairwise. -/
theorem pairwise_of_forall_mem {α : Type} {R : α → α → Prop} :
    ∀ l : List α, (∀ a ∈ l, ∀ b ∈ l, R a b) → l.Pairwise R := by
  intro l
  induction l with
  | nil => intro _; simp
  | cons x xs ih =>
    intro h
    refine List.pairwise_cons.mpr ⟨fun b hb => h x (by simp) b (by simp [hb]), ?_⟩
    exact ih (fun a ha b hb => h a (by simp [ha]) b (by simp [hb]))

/-! ### Validation-state lemmas -/

/-- `alookup` after `aupsert`. -/
theorem alookup_aupsert {β : Type} (k : ℤ) (v : β) :
    ∀ (l : List (ℤ × β)) (n : ℤ),
      alookup n (aupsert l k v) = if n = k then some v else alookup n l := by
  intro l
  induction l with
  | nil =>
    intro n
    by_cases h : n = k <;> simp [aupsert, alookup, h]
  | cons p rest ih =>
    intro n
    rcases p with ⟨k', v'⟩
    rw [aupsert]
    by_cases hk : k = k'
    · rw [if_pos hk]
      subst hk
      by_cases hn : n = k <;> simp [alookup, hn]
    · rw [if_neg hk]
      by_cases hn : n = k'
      · have hnk : ¬ n = k := fun h => hk (by rw [← h]; exact hn)
        simp [alookup, hn, hnk, Ne.symm hk]
      · simp [alookup, hn, ih n]

/-- `stateGet` after one upsert. -/
theorem stateGet_aupsert (l : List (ℤ × Bool)) (k n : ℤ) (b : Bool) :
    stateGet (aupsert l k b) n = if n = k then b else stateGet l n := by
  unfold stateGet
  rw [alookup_aupsert k b l n]
  by_cases h : n = k <;> simp [h]

/-- A successful lookup certifies membership. -/
theorem alookup_mem {β : Type} (n : ℤ) (b : β) :
    ∀ l : List (ℤ × β), alookup n l = some b → (n, b) ∈ l := by
  intro l
  induction l with
  | nil => intro h; simp [alookup] at h
  | cons p rest ih =>
    rcases p with ⟨k', v'⟩
    intro h
    rw [alookup] at h
    by_cases hn : n = k'
    · rw [if_pos hn] at h
      have : v' = b := Option.some.inj h
      subst this
      subst hn
      simp
    · rw [if_neg hn] at h
      exact List.mem_cons_of_mem _ (ih h)

/-- Replaying a batch of releases forces the released notes off and leaves
others unchanged. -/
theorem stateGet_foldl_release :
    ∀ (ns : List ℤ) (v : List (ℤ × Bool)) (n : ℤ),
      stateGet (ns.foldl (fun acc m => aupsert acc m false) v) n =
        if n ∈ ns then false else stateGet v n := by
  intro ns
  induction ns with
  | nil =>
    intro v n
    simp
  | cons m rest ih =>
    intro v n
    rw [List.foldl_cons, ih (aupsert v m false) n, stateGet_aupsert]
    by_cases h1 : n ∈ rest
    · simp [h1]
    · by_cases h2 : n = m <;> simp [h1, h2]

/-- A note left pressed by the log is collected as unreleased. -/
theorem mem_unreleasedNotes (evs : List KeyEvt) (n : ℤ)
    (h : stateGet (noteValidation evs) n = true) : n ∈ unreleasedNotes evs := by
  unfold stateGet at h
  cases hl : alookup n (noteValidation evs) with
  | none => rw [hl] at h; simp at h
  | some b =>
    rw [hl] at h
    simp at h
    subst h
    have hmem : (n, true) ∈ noteValidation evs := alookup_mem n true _ hl
    exact List.mem_map.mpr ⟨(n, true), List.mem_filter.mpr ⟨hmem, by simp⟩, rfl⟩

/-! ### Claim C8 -/

/-- `noteValidation` across an append continues the replay. -/
theorem noteValidation_append (l1 l2 : List KeyEvt) :
    noteValidation (l1 ++ l2) =
      l2.foldl (fun acc e => aupsert acc e.note e.press) (noteValidation l1) := by
  unfold noteValidation
  rw [List.foldl_append]

/-- After appending the synthetic releases, replaying the whole log leaves
every note unpressed. -/
theorem replay_append_synth (cfg : ModeConfig) (evs : List KeyEvt) (n : ℤ) :
    stateGet (noteValidation (evs ++ syntheticReleases cfg evs)) n = false := by
  rw [noteValidation_append]
  unfold syntheticReleases
  rw [List.foldl_map]
  show stateGet ((unreleasedNotes evs).foldl (fun acc m => aupsert acc m false)
    (noteValidation evs)) n = false
  rw [stateGet_foldl_release]
  by_cases hm : n ∈ unreleasedNotes evs
  · simp [hm]
  · rw [if_neg hm]
    cases hb : stateGet (noteValidation evs) n with
    | false => rfl
    | true => exact absurd (mem_unreleasedNotes evs n hb) hm

/-- Every note the log leaves pressed receives a synthetic release strictly
after every real event. -/
theorem synthetic_covers (cfg : ModeConfig) (evs : List KeyEvt) (n : ℤ)
    (hsort : evs.Pairwise (fun a b => a.time ≤ b.time))
    (h : stateGet (noteValidation evs) n = true) :
    ∃ e ∈ syntheticReleases cfg evs, e.note = n ∧ e.press = false ∧
      ∀ r ∈ evs, r.time < e.time := by
  have hn := mem_unreleasedNotes evs n h
  refine ⟨_, List.mem_map.mpr ⟨n, hn, rfl⟩, rfl, rfl, ?_⟩
  intro r hr
  have hle := time_le_lastEventTime evs hsort r hr
  show r.time < lastEventTime evs + 1
  linarith

/-- C8 amended: for every note-on admitted to the log (adjusted pitch in
playable range and key-mapped) still pressed at stream end, `from_midi`
appends a synthetic release for that note timestamped strictly after every
real event, and replaying the final log leaves no note pressed.  (Note-ons
filtered out of the log — out of range or unmapped — get no synthetic
release, but also never appear pressed.) -/
theorem from_midi_synthetic_release (cfg : ModeConfig) (offset : ℤ) (sel : Option ℕ)
    (tpb : ℕ) (tracks : List (List TimedMsg)) :
    (∀ n, stateGet (noteValidation (realEvents cfg offset sel tpb tracks)) n = true →
      ∃ e ∈ syntheticReleases cfg (realEvents cfg offset sel tpb tracks),
        e.note = n ∧ e.press = false ∧
          ∀ r ∈ realEvents cfg offset sel tpb tracks, r.time < e.time) ∧
    ∀ n, stateGet (noteValidation (from_midi cfg offset sel tpb tracks)) n = false := by
  constructor
  · intro n hn
    exact synthetic_covers cfg _ n (realEvents_time_sorted cfg offset sel tpb tracks) hn
  · intro n
    unfold from_midi
    exact replay_append_synth cfg _ n

/-- C8 counterexample: a stream whose only message is a note-on of pitch 49
(in 21-key range but mapped to no key) has an unmatched note-on, yet
`from_midi` emits no event at all — in particular no synthetic release for
that note, contradicting the claim as stated over all note-ons of the
stream. -/
theorem from_midi_unmapped_counterexample :
    from_midi mode21key 0 none 480 [[⟨0, MidiMsg.noteOn 49 100⟩]] = [] := by
  decide

/-- Witness for C8: a lone admitted note-on of pitch 60 is left pressed by
the real log, gets a synthetic release after it, and the final log replays
to all-released. -/
theorem from_midi_synthetic_release_witness :
    stateGet (noteValidation
      (realEvents mode21key 0 none 480 [[⟨0, MidiMsg.noteOn 60 100⟩]])) 60 = true ∧
    (∃ e ∈ syntheticReleases mode21key
        (realEvents mode21key 0 none 480 [[⟨0, MidiMsg.noteOn 60 100⟩]]),
      e.note = 60 ∧ e.press = false ∧
        ∀ r ∈ realEvents mode21key 0 none 480 [[⟨0, MidiMsg.noteOn 60 100⟩]],
          r.time < e.time) ∧
    ∀ n, stateGet (noteValidation
      (from_midi mode21key 0 none 480 [[⟨0, MidiMsg.noteOn 60 100⟩]])) n = false :=
  ⟨by decide,
   (from_midi_synthetic_release mode21key 0 none 480 [[⟨0, MidiMsg.noteOn 60 100⟩]]).1
     60 (by decide),
   (from_midi_synthetic_release mode21key 0 none 480 [[⟨0, MidiMsg.noteOn 60 100⟩]]).2⟩

/-! ### Claim C4 -/

/-- C4 amended: the event log of `from_midi` is ordered by timestamp
(non-decreasing), and two events with equal timestamps are ordered with the
press event before the release event (the sort key is
`(tick, not is_press)`, so presses sort first) — provided the resolution and
every tempo change are positive, which makes tick order and time order
agree. -/
theorem from_midi_sorted (cfg : ModeConfig) (offset : ℤ) (sel : Option ℕ) (tpb : ℕ)
    (tracks : List (List TimedMsg)) (htpb : 0 < tpb)
    (htempo : ∀ p ∈ (collectAll sel tracks).2, 0 < p.2) :
    (from_midi cfg offset sel tpb tracks).Pairwise
      (fun a b => a.time ≤ b.time ∧ (a.time = b.time → (b.press → a.press))) := by
  unfold from_midi
  rw [List.pairwise_append]
  refine ⟨realEvents_sorted cfg offset sel tpb tracks htpb htempo, ?_, ?_⟩
  · apply pairwise_of_forall_mem
    intro a ha b hb
    obtain ⟨na, _, hea⟩ := List.mem_map.mp ha
    obtain ⟨nb, _, heb⟩ := List.mem_map.mp hb
    subst hea
    subst heb
    refine ⟨le_of_eq rfl, fun _ hbp => ?_⟩
    simp at hbp
  · intro a ha b hb
    obtain ⟨nb, _, heb⟩ := List.mem_map.mp hb
    have hle := time_le_lastEventTime _ (realEvents_time_sorted cfg offset sel tpb tracks) a ha
    have hlt : a.time < b.time := by
      rw [← heb]
      show a.time < lastEventTime (realEvents cfg offset sel tpb tracks) + 1
      linarith
    exact ⟨le_of_lt hlt, fun he => absurd he (ne_of_lt hlt)⟩

/-- The MIDI input of the C4 counterexample: one track holding a note-on of
60 at tick 0, then at tick 480 a simultaneous note-off of 60 and note-on of
62. -/
def tracksC4 : List (List TimedMsg) :=
  [[⟨0, MidiMsg.noteOn 60 100⟩, ⟨480, MidiMsg.noteOff 60 0⟩, ⟨0, MidiMsg.noteOn 62 100⟩]]

/-- Witness for C4 on `tracksC4` (no tempo changes, resolution 480). -/
theorem from_midi_sorted_witness :
    (0 : ℕ) < 480 ∧ (∀ p ∈ (collectAll none tracksC4).2, 0 < p.2) ∧
    (from_midi mode21key 0 none 480 tracksC4).Pairwise
      (fun a b => a.time ≤ b.time ∧ (a.time = b.time → (b.press → a.press))) :=
  ⟨by decide, by decide,
   from_midi_sorted mode21key 0 none 480 tracksC4 (by decide) (by decide)⟩

/-- Spec side of C4: the claimed ordering — timestamps ascending with ties
broken "release before press" (no press may precede a release at the same
timestamp). -/
def claimOrderedC4 (evs : List KeyEvt) : Prop :=
  evs.Pairwise (fun a b => a.time ≤ b.time ∧ (a.time = b.time → (a.press → b.press)))

/-- C4 counterexample: on `tracksC4` the log contains, at the same
timestamp, the press of key `s` *before* the release of key `a` — the code
sorts ties press-first (`not is_press`), not release-first as claimed. -/
theorem from_midi_ties_counterexample :
    ¬ claimOrderedC4 (from_midi mode21key 0 none 480 tracksC4) := by
  intro h
  have h' : claimOrderedC4
      ([⟨"a", true, realTime 480 [] 0 0 500000 0, 60, 100⟩,
        ⟨"s", true, realTime 480 [] 0 0 500000 480, 62, 100⟩,
        ⟨"a", false, realTime 480 [] 0 0 500000 480, 60, 0⟩,
        ⟨"s", false, realTime 480 [] 0 0 500000 480 + 1, 62, 0⟩] : List KeyEvt) := h
  unfold claimOrderedC4 at h'
  have hR := (List.pairwise_cons.mp ((List.pairwise_cons.mp h').2)).1
    (⟨"a", false, realTime 480 [] 0 0 500000 480, 60, 0⟩ : KeyEvt) (by simp)
  have hfalse := hR.2 rfl rfl
  simp at hfalse
